import Mathlib

/-!
Verification of the Workspace Cache & Access Engine of `mcp-git-ingest-extend`
(`src/mcp_git_ingest/main.py`) against its natural-language specification.

The embedding models Python text as `List Char` (`PyStr`).  Files are read and
written on Linux in text mode, so a file's in-memory content is the string of
its characters with `'\n'` line terminators; `readlines` and `splitlines`
below reproduce the corresponding Python primitives.  Filesystem and git
effects are modelled by explicit environments (`CloneWorld`, `ToolEnv`) and
event traces; functions that may raise in Python are given `Except` result
types, with the boundary tools catching internally as the source does.
-/

set_option maxHeartbeats 1000000

/-- Python strings, modelled as lists of characters. -/
abbrev PyStr := List Char

/-- Shorthand to turn a Lean string literal into a `PyStr`. -/
def toL (s : String) : PyStr := s.data

/-- The line-feed character. -/
def lf : Char := '\n'

/-- Python `str.startswith`: `listStartsWith pat s` is true when `pat` is an
initial segment of `s`. -/
def listStartsWith : PyStr → PyStr → Bool
  | [], _ => true
  | _ :: _, [] => false
  | p :: ps, c :: cs => p = c && listStartsWith ps cs

/-- Python `file.readlines()` on the string read from a text-mode file:
split after each `'\n'`, keeping the terminator; a final segment without a
terminator is kept as an unterminated last line. -/
def readlines : PyStr → List PyStr
  | [] => []
  | c :: cs =>
    if c = lf then [lf] :: readlines cs
    else
      match readlines cs with
      | [] => [[c]]
      | l :: ls => (c :: l) :: ls

/-- True when `c` is one of the line boundaries recognised by Python
`str.splitlines` (LF, CR, VT, FF, FS, GS, RS, NEL, LINE SEPARATOR,
PARAGRAPH SEPARATOR). -/
def isLineBoundary (c : Char) : Bool :=
  c = '\n' || c = '\r' || c = '\x0b' || c = '\x0c' ||
  c = '\x1c' || c = '\x1d' || c = '\x1e' || c = '\x85' ||
  c = '\u2028' || c = '\u2029'

/-- Python `str.splitlines()`: split at line boundaries, dropping the
terminators; a CR immediately followed by LF counts as a single boundary;
no trailing empty line is produced for a terminated final line. -/
def splitlines : PyStr → List PyStr
  | [] => []
  | [c] => if isLineBoundary c then [[]] else [[c]]
  | c :: d :: cs =>
    if isLineBoundary c then
      if c = '\r' ∧ d = '\n' then [] :: splitlines cs
      else [] :: splitlines (d :: cs)
    else
      match splitlines (d :: cs) with
      | [] => [[c]]
      | l :: ls => (c :: l) :: ls

/-- Resolution of one endpoint of a Python slice on a list of length `n`:
negative indices count from the end, and the result is clamped to `[0, n]`. -/
def sliceIndex (n : Nat) (i : Int) : Nat :=
  if i < 0 then (max 0 (i + n)).toNat else min i.toNat n

/-- Python slice assignment `l[a:b] = xs` (step 1): the elements between the
resolved endpoints are replaced by `xs`; when the resolved end lies before the
resolved start, nothing is removed and `xs` is inserted at the start index. -/
def sliceAssign (l : List α) (a b : Int) (xs : List α) : List α :=
  let a2 := sliceIndex l.length a
  let b2 := max a2 (sliceIndex l.length b)
  l.take a2 ++ xs ++ l.drop b2

/-- `modify_file_content(file_path, content, start_line, end_line)` from
`main.py`, as a function from the existing file content to the new file
content.  If either line number is `None` the whole file is replaced;
otherwise the existing lines are read, `start_line` is shifted to a 0-based
index clamped below at 0, `end_line` is clamped above at the line count, the
new content is split into lines, each new line gets a `'\n'` appended, and
the new lines are spliced over the index range by Python slice assignment. -/
def modify_file_content (fileContent content : PyStr)
    (start_line end_line : Option Int) : PyStr :=
  match start_line, end_line with
  | some s, some e =>
    let lines := readlines fileContent
    let start_idx : Int := max 0 (s - 1)
    let end_idx : Int := min (lines.length : Int) e
    let new_lines := (splitlines content).map (fun l => l ++ [lf])
    (sliceAssign lines start_idx end_idx new_lines).flatten
  | _, _ => content

-- A quick sanity example matching the spec's §8 scenario is proved below as
-- the witness of the C2 theorem.

/-- C2: for an existing file of `n ≥ 1` lines and a line-range write with
`1 ≤ start ≤ end ≤ n`, the write replaces exactly the lines in
`[start, end]` (1-based, inclusive) with the lines of the new content (each
terminated with a line feed), and every line outside `[start, end]` is kept
byte-identical in place: the resulting file is the concatenation of the first
`start - 1` original lines, the new content lines, and the original lines
after line `end`. -/
theorem C2_line_range_frame (f c : PyStr) (s e : Int)
    (h1 : 1 ≤ s) (h2 : s ≤ e) (h3 : e ≤ (readlines f).length)
    (hn : 1 ≤ (readlines f).length) :
    modify_file_content f c (some s) (some e) =
      ((readlines f).take (s - 1).toNat
        ++ (splitlines c).map (fun l => l ++ [lf])
        ++ (readlines f).drop e.toNat).flatten := by
  have hs0 : (0 : Int) ≤ s - 1 := by omega
  have hmax : max 0 (s - 1) = s - 1 := by omega
  have hmin : min ((readlines f).length : Int) e = e := by omega
  simp only [modify_file_content, sliceAssign, sliceIndex, hmax, hmin]
  have hsx : ¬ (s - 1 < (0 : Int)) := by omega
  have hex : ¬ (e < (0 : Int)) := by omega
  simp only [hsx, if_false, hex]
  have h4 : (s - 1).toNat ≤ (readlines f).length := by omega
  have h5 : e.toNat ≤ (readlines f).length := by omega
  have h6 : min (s - 1).toNat (readlines f).length = (s - 1).toNat :=
    Nat.min_eq_left h4
  have h7 : min e.toNat (readlines f).length = e.toNat := Nat.min_eq_left h5
  have h8 : max (s - 1).toNat e.toNat = e.toNat := by omega
  simp only [h6, h7, h8]

/-- Witness for C2: the spec's own scenario, a `start=2, end=3` write on a
5-line file replaces only lines 2-3 and keeps lines 1, 4, 5 byte-identical. -/
theorem C2_line_range_frame_witness :
    ((1 : Int) ≤ 2 ∧ (2 : Int) ≤ 3 ∧
        (3 : Int) ≤ (readlines (toL "a\nb\nc\nd\ne\n")).length ∧
        1 ≤ (readlines (toL "a\nb\nc\nd\ne\n")).length) ∧
      modify_file_content (toL "a\nb\nc\nd\ne\n") (toL "X\nY")
          (some 2) (some 3) =
        ((readlines (toL "a\nb\nc\nd\ne\n")).take ((2 : Int) - 1).toNat
          ++ (splitlines (toL "X\nY")).map (fun l => l ++ [lf])
          ++ (readlines (toL "a\nb\nc\nd\ne\n")).drop (3 : Int).toNat).flatten :=
  ⟨⟨by decide, by decide, by decide, by decide⟩,
    C2_line_range_frame (toL "a\nb\nc\nd\ne\n") (toL "X\nY") 2 3
      (by decide) (by decide) (by decide) (by decide)⟩

/-- C9: when exactly one of `start_line` and `end_line` is `None`, the
`or`-test on the Nones makes the operation a full-file replacement: the prior
content is discarded and the result is exactly the given content. -/
theorem C9_half_range_full_replace (f c : PyStr) (sl el : Option Int)
    (h : (sl = none ∧ el ≠ none) ∨ (sl ≠ none ∧ el = none)) :
    modify_file_content f c sl el = c := by
  rcases h with ⟨h1, _⟩ | ⟨_, h2⟩
  · subst h1; rfl
  · subst h2; cases sl <;> rfl

/-- Witness for C9 at `start_line = none`, `end_line = some 2`. -/
theorem C9_half_range_full_replace_witness :
    (((none : Option Int) = none ∧ (some (2 : Int)) ≠ none) ∨
        ((none : Option Int) ≠ none ∧ (some (2 : Int)) = none)) ∧
      modify_file_content (toL "old\n") (toL "new") none (some 2) =
        toL "new" :=
  ⟨Or.inl ⟨rfl, by decide⟩,
    C9_half_range_full_replace (toL "old\n") (toL "new") none (some 2)
      (Or.inl ⟨rfl, by decide⟩)⟩

/-- When the resolved start of a slice assignment lies at or past the end of
the list, nothing is removed and the new elements are appended. -/
theorem sliceAssign_append_of_start_ge {α : Type} (l : List α) (a b : Int)
    (xs : List α) (h : (l.length : Int) ≤ a) :
    sliceAssign l a b xs = l ++ xs := by
  simp only [sliceAssign, sliceIndex]
  have h1 : ¬ (a < (0 : Int)) := by omega
  rw [if_neg h1]
  have h2 : min a.toNat l.length = l.length := by omega
  rw [h2]
  have h3 : max l.length
      (if b < 0 then (max 0 (b + l.length)).toNat else min b.toNat l.length) =
      l.length := by split <;> omega
  rw [h3, List.take_length, List.drop_length, List.append_nil]

/-- C10: a line-range write whose `start_line` exceeds the current line count
removes no existing line: the resolved splice range is empty and sits at the
end of the list, so the new content lines (each with a line feed appended)
are appended after all existing lines. -/
theorem C10_append_when_start_past_end (f c : PyStr) (s e : Int)
    (h : ((readlines f).length : Int) < s) :
    modify_file_content f c (some s) (some e) =
      (readlines f ++ (splitlines c).map (fun l => l ++ [lf])).flatten := by
  simp only [modify_file_content]
  rw [sliceAssign_append_of_start_ge _ _ _ _ (by omega)]

/-- Witness for C10: writing range `[3, 5]` of a 1-line file appends the new
line after the existing one. -/
theorem C10_append_when_start_past_end_witness :
    ((readlines (toL "a\n")).length : Int) < 3 ∧
      modify_file_content (toL "a\n") (toL "x") (some 3) (some 5) =
        (readlines (toL "a\n")
          ++ (splitlines (toL "x")).map (fun l => l ++ [lf])).flatten :=
  ⟨by decide,
    C10_append_when_start_past_end (toL "a\n") (toL "x") 3 5 (by decide)⟩

/-- `readlines` produces the empty line list only for the empty string. -/
theorem readlines_eq_nil_iff (s : PyStr) : readlines s = [] ↔ s = [] := by
  cases s with
  | nil => exact ⟨fun _ => rfl, fun _ => rfl⟩
  | cons c cs =>
    constructor
    · intro h
      rw [readlines] at h
      by_cases hc : c = lf
      · rw [if_pos hc] at h; cases h
      · rw [if_neg hc] at h
        rcases hr : readlines cs with _ | ⟨l, ls⟩ <;> rw [hr] at h <;> cases h
    · intro h; cases h

/-- Every line of a string that ends in a line feed is a block of
non-line-feed characters followed by a single line feed. -/
theorem readlines_shape_of_terminated (s : PyStr) (hs : s.getLast? = some lf) :
    ∀ l ∈ readlines s, ∃ m, l = m ++ [lf] ∧ lf ∉ m := by
  induction s with
  | nil => cases hs
  | cons c cs ih =>
    intro l hl
    rw [readlines] at hl
    by_cases hc : c = lf
    · rw [if_pos hc] at hl
      rcases List.mem_cons.mp hl with rfl | hl2
      · exact ⟨[], by simp [hc], by simp⟩
      · rcases hcs : cs with _ | ⟨d, cs2⟩
        · rw [hcs] at hl2; cases hl2
        · apply ih _ l hl2
          rw [hcs] at hs ⊢
          rwa [List.getLast?_cons_cons] at hs
    · rw [if_neg hc] at hl
      rcases hr : readlines cs with _ | ⟨l0, ls⟩
      · have hcse : cs = [] := (readlines_eq_nil_iff cs).mp hr
        subst hcse
        rw [List.getLast?_singleton, Option.some.injEq] at hs
        exact absurd hs hc
      · rw [hr] at hl
        have hcs : cs ≠ [] := by
          intro h; subst h; rw [readlines] at hr; cases hr
        have hs2 : cs.getLast? = some lf := by
          rcases cs with _ | ⟨d, cs2⟩
          · exact absurd rfl hcs
          · rwa [List.getLast?_cons_cons] at hs
        rcases List.mem_cons.mp hl with rfl | hl2
        · rcases ih hs2 l0 (by rw [hr]; exact List.mem_cons_self l0 ls) with
            ⟨m, rfl, hm⟩
          exact ⟨c :: m, rfl, by
            intro hmem
            rcases List.mem_cons.mp hmem with h | h
            · exact hc h.symm
            · exact hm h⟩
        · exact ih hs2 l (by rw [hr]; exact List.mem_cons.mpr (Or.inr hl2))

/-- No segment produced by `splitlines` contains a line feed. -/
theorem splitlines_no_lf : (s : PyStr) → ∀ l ∈ splitlines s, lf ∉ l
  | [] => by intro l hl; cases hl
  | [c] => by
    intro l hl
    rw [splitlines] at hl
    by_cases hb : isLineBoundary c
    · rw [if_pos hb] at hl
      rcases List.mem_cons.mp hl with rfl | h
      · simp
      · cases h
    · rw [if_neg hb] at hl
      rcases List.mem_cons.mp hl with rfl | h
      · intro hmem
        rcases List.mem_cons.mp hmem with rfl | h2
        · exact hb (by decide)
        · cases h2
      · cases h
  | c :: d :: cs => by
    intro l hl
    have ih1 := splitlines_no_lf (d :: cs)
    have ih2 := splitlines_no_lf cs
    rw [splitlines] at hl
    by_cases hb : isLineBoundary c
    · rw [if_pos hb] at hl
      by_cases hcr : c = '\x0d' ∧ d = '\n'
      · rw [if_pos hcr] at hl
        rcases List.mem_cons.mp hl with rfl | h
        · simp
        · exact ih2 l h
      · rw [if_neg hcr] at hl
        rcases List.mem_cons.mp hl with rfl | h
        · simp
        · exact ih1 l h
    · rw [if_neg hb] at hl
      rcases hm : splitlines (d :: cs) with _ | ⟨l0, ls⟩ <;> rw [hm] at hl
      · rcases List.mem_cons.mp hl with rfl | h
        · intro hmem
          rcases List.mem_cons.mp hmem with rfl | h2
          · exact hb (by decide)
          · cases h2
        · cases h
      · rcases List.mem_cons.mp hl with rfl | h
        · intro hmem
          rcases List.mem_cons.mp hmem with rfl | h2
          · exact hb (by decide)
          · exact ih1 l0 (by rw [hm]; exact List.mem_cons_self l0 ls) h2
        · exact ih1 l (by rw [hm]; exact List.mem_cons.mpr (Or.inr h))
termination_by s => s.length

/-- Reading back a block that consists of a line-feed-free prefix, a line
feed, and a remainder yields that terminated line followed by the lines of
the remainder. -/
theorem readlines_append_terminated (m rest : PyStr) (hm : lf ∉ m) :
    readlines (m ++ lf :: rest) = (m ++ [lf]) :: readlines rest := by
  induction m with
  | nil => simp [readlines]
  | cons c m ih =>
    have hc : c ≠ lf := fun h => hm (h ▸ List.mem_cons_self c m)
    have hm2 : lf ∉ m := fun h => hm (List.mem_cons.mpr (Or.inr h))
    rw [List.cons_append, readlines, if_neg hc, ih hm2, List.cons_append]

/-- Reading back the concatenation of lines that each end in a single line
feed recovers exactly those lines. -/
theorem readlines_flatten_of_terminated (L : List PyStr)
    (h : ∀ l ∈ L, ∃ m, l = m ++ [lf] ∧ lf ∉ m) :
    readlines L.flatten = L := by
  induction L with
  | nil => rfl
  | cons l ls ih =>
    rcases h l (List.mem_cons_self l ls) with ⟨m, rfl, hm⟩
    rw [List.flatten_cons, List.append_assoc, List.singleton_append,
      readlines_append_terminated m _ hm,
      ih (fun x hx => h x (List.mem_cons.mpr (Or.inr hx)))]

/-- Every element spliced into the line list by `sliceAssign` comes either
from the original list or from the new elements. -/
theorem mem_sliceAssign {α : Type} {x : α} {l xs : List α} {a b : Int}
    (h : x ∈ sliceAssign l a b xs) : x ∈ l ∨ x ∈ xs := by
  simp only [sliceAssign, List.mem_append] at h
  rcases h with (h | h) | h
  · exact Or.inl (List.mem_of_mem_take h)
  · exact Or.inr h
  · exact Or.inl (List.mem_of_mem_drop h)

/-- C8 counterexample: the claim as stated fails on a file whose last line
has no trailing line feed.  Writing range `[1, 1]` of the 2-line file
`"a\nb"` produces `"x\nb"`, whose retained final line `"b"` is not
terminated with a line feed. -/
theorem C8_unterminated_last_line_counterexample :
    readlines (modify_file_content (toL "a\nb") (toL "x")
        (some 1) (some 1)) = [toL "x\n", toL "b"] ∧
      toL "b" ∈ readlines (modify_file_content (toL "a\nb") (toL "x")
        (some 1) (some 1)) ∧
      ¬ (toL "b").getLast? = some lf := by decide

/-- C8 (amended): for a line-range write on an existing file whose content is
empty or ends with a line feed, every line of the resulting file content —
each original retained line and each newly spliced line — is terminated with
exactly one line feed (the amendment adds the terminated-original-content
premise forced by the counterexample; the original claim fails when the
file's unterminated last line is retained). -/
theorem C8_amended_every_line_terminated (f c : PyStr) (s e : Int)
    (hf : f = [] ∨ f.getLast? = some lf) :
    ∀ l ∈ readlines (modify_file_content f c (some s) (some e)),
      l.getLast? = some lf ∧ l.count lf = 1 := by
  intro l hl
  simp only [modify_file_content] at hl
  have hshape : ∀ x ∈ sliceAssign (readlines f) (max 0 (s - 1))
      (min ((readlines f).length : Int) e)
      ((splitlines c).map (fun l => l ++ [lf])), ∃ m, x = m ++ [lf] ∧ lf ∉ m := by
    intro x hx
    rcases mem_sliceAssign hx with hx | hx
    · rcases hf with rfl | hf
      · rw [readlines] at hx; cases hx
      · exact readlines_shape_of_terminated f hf x hx
    · rcases List.mem_map.mp hx with ⟨y, hy, rfl⟩
      exact ⟨y, rfl, splitlines_no_lf c y hy⟩
  rw [readlines_flatten_of_terminated _ hshape] at hl
  rcases hshape l hl with ⟨m, rfl, hm⟩
  constructor
  · exact List.getLast?_concat m
  · rw [List.count_append]
    rw [List.count_eq_zero.mpr hm]
    rfl

/-- Witness for C8 (amended): on the terminated file `"a\n"`, the write of
`"x"` over range `[1, 1]` yields the single line `"x\n"`, which ends in a
line feed and contains exactly one. -/
theorem C8_amended_every_line_terminated_witness :
    (toL "x\n").getLast? = some lf ∧ (toL "x\n").count lf = 1 :=
  C8_amended_every_line_terminated (toL "a\n") (toL "x") 1 1
    (Or.inr (by decide)) (toL "x\n") (by decide)

/-- A filesystem subtree as seen by `os.listdir` / `os.path.isdir`: a
directory holds its entries as (name, subtree) pairs.  On a real filesystem
the names at one level are distinct; the renderer's theorems that depend on
distinctness take it as a hypothesis. -/
inductive FSNode where
  | file : FSNode
  | dir (entries : List (PyStr × FSNode)) : FSNode

/-- A named directory entry. -/
abbrev Ent := PyStr × FSNode

/-- Python string comparison `a <= b`: lexicographic by code point. -/
def lexLe : PyStr → PyStr → Bool
  | [], _ => true
  | _ :: _, [] => false
  | a :: as, b :: bs => if a < b then true else if b < a then false else lexLe as bs

/-- Entry order used by `entries.sort()`: entries compared by name.  (With
distinct names this coincides with Python's sort of the name list.) -/
def entLe (a b : Ent) : Prop := lexLe a.1 b.1 = true

instance : DecidableRel entLe := fun a b => instDecidableEqBool (lexLe a.1 b.1) true

theorem lexLe_total : ∀ a b : PyStr, lexLe a b = true ∨ lexLe b a = true := by
  intro a
  induction a with
  | nil => intro b; exact Or.inl rfl
  | cons x xs ih =>
    intro b
    cases b with
    | nil => exact Or.inr rfl
    | cons y ys =>
      rcases lt_trichotomy x y with h | h | h
      · left; rw [lexLe, if_pos h]
      · subst h
        rcases ih ys with h2 | h2
        · left; rw [lexLe, if_neg (lt_irrefl x), if_neg (lt_irrefl x)]; exact h2
        · right; rw [lexLe, if_neg (lt_irrefl x), if_neg (lt_irrefl x)]; exact h2
      · right; rw [lexLe, if_pos h]

theorem lexLe_trans : ∀ {a b c : PyStr},
    lexLe a b = true → lexLe b c = true → lexLe a c = true := by
  intro a
  induction a with
  | nil => intro b c _ _; rfl
  | cons x xs ih =>
    intro b c hab hbc
    cases b with
    | nil => rw [lexLe] at hab; cases hab
    | cons y ys =>
      cases c with
      | nil => rw [lexLe] at hbc; cases hbc
      | cons z zs =>
        rw [lexLe] at hab hbc ⊢
        rcases lt_trichotomy x y with hxy | hxy | hxy
        · rcases lt_trichotomy y z with hyz | hyz | hyz
          · rw [if_pos (lt_trans hxy hyz)]
          · subst hyz; rw [if_pos hxy]
          · rw [if_pos hyz, if_neg (not_lt_of_lt hyz)] at hbc; cases hbc
        · subst hxy
          rcases lt_trichotomy x z with hyz | hyz | hyz
          · rw [if_pos hyz]
          · subst hyz
            rw [if_neg (lt_irrefl x), if_neg (lt_irrefl x)] at hab hbc ⊢
            exact ih hab hbc
          · rw [if_pos hyz, if_neg (not_lt_of_lt hyz)] at hbc; cases hbc
        · rw [if_pos hxy, if_neg (not_lt_of_lt hxy)] at hab; cases hab

instance : IsTotal Ent entLe := ⟨fun a b => lexLe_total a.1 b.1⟩

instance : IsTrans Ent entLe := ⟨fun _ _ _ hab hbc => lexLe_trans hab hbc⟩

/-- A permutation of a list leaves its `sizeOf` unchanged. -/
theorem sizeOf_of_perm {α : Type} [SizeOf α] {l1 l2 : List α}
    (h : l1.Perm l2) : sizeOf l1 = sizeOf l2 := by
  induction h with
  | nil => rfl
  | cons x _ ih => simp only [List.cons.sizeOf_spec]; omega
  | swap x y l => simp only [List.cons.sizeOf_spec]; omega
  | trans _ _ ih1 ih2 => omega

/-- The terminal branch glyph used for a directory's last listed entry. -/
def glyphLast : PyStr := toL "└── "

/-- The mid branch glyph used for every other listed entry. -/
def glyphMid : PyStr := toL "├── "

/-- Indentation passed to children of a last entry. -/
def indentBlank : PyStr := toL "    "

/-- Indentation passed to children of a non-last entry. -/
def indentBar : PyStr := toL "│   "

/-- The version-control metadata name prefix that is skipped. -/
def gitMark : PyStr := toL ".git"

/-- `os.path.isdir` on a subtree. -/
def isDirNode : FSNode → Bool
  | .file => false
  | .dir _ => true

/-- Sorting the entries does not change their total size (it is a
permutation). -/
theorem sizeOf_insertionSort (l : List Ent) :
    sizeOf (List.insertionSort entLe l) = sizeOf l :=
  sizeOf_of_perm (List.perm_insertionSort entLe l)

mutual

/-- `get_directory_tree(path, prefix)` from `main.py`: list the entries of
the directory at `path`, sort them (`entries.sort()`), and emit one line per
entry via the enumerated loop; `.file` returns nothing (the source never
calls the function on a non-directory — recursion is guarded by
`os.path.isdir`). -/
def get_directory_tree (node : FSNode) (pre : PyStr) : PyStr :=
  match node with
  | .file => []
  | .dir entries => emitEntries (List.insertionSort entLe entries) pre
termination_by sizeOf node
decreasing_by
  simp only [sizeOf_insertionSort, FSNode.dir.sizeOf_spec]
  omega

/-- The body of `for i, entry in enumerate(entries)` in
`get_directory_tree`: entries whose name starts with `.git` are skipped
(`continue`); `is_last` is `i == len(entries) - 1`, i.e. it holds exactly
when no entries (skipped or not) remain after the current one; each emitted
line is `prefix + glyph + name + "\n"`, followed immediately by the
rendering of the entry's children when it is a directory. -/
def emitEntries (l : List Ent) (pre : PyStr) : PyStr :=
  match l with
  | [] => []
  | (name, child) :: rest =>
    (if listStartsWith gitMark name then []
     else
       pre ++ (if rest.isEmpty then glyphLast else glyphMid) ++ name ++ [lf] ++
         (if isDirNode child then
            get_directory_tree child
              (pre ++ (if rest.isEmpty then indentBlank else indentBar))
          else []))
      ++ emitEntries rest pre
termination_by sizeOf l
decreasing_by
  · simp only [List.cons.sizeOf_spec, Prod.mk.sizeOf_spec]; omega
  · simp only [List.cons.sizeOf_spec]; omega

end

/-- Unfolding of the renderer at a directory node. -/
theorem get_directory_tree_dir (entries : List Ent) (pre : PyStr) :
    get_directory_tree (.dir entries) pre =
      emitEntries (List.insertionSort entLe entries) pre := by
  simp only [get_directory_tree]

/-- Unfolding of the entry loop at the empty list. -/
theorem emitEntries_nil (pre : PyStr) : emitEntries [] pre = [] := by
  simp only [emitEntries]

/-- Unfolding of the entry loop at a cons. -/
theorem emitEntries_cons (name : PyStr) (child : FSNode) (rest : List Ent)
    (pre : PyStr) :
    emitEntries ((name, child) :: rest) pre =
      (if listStartsWith gitMark name then []
       else
         pre ++ (if rest.isEmpty then glyphLast else glyphMid) ++ name ++ [lf] ++
           (if isDirNode child then
              get_directory_tree child
                (pre ++ (if rest.isEmpty then indentBlank else indentBar))
            else []))
        ++ emitEntries rest pre := by
  simp only [emitEntries]

/-- Unfolding of the renderer at a file node. -/
theorem get_directory_tree_file (pre : PyStr) :
    get_directory_tree .file pre = [] := by
  simp only [get_directory_tree]

/-- The string is empty or ends with a line feed. -/
def endsLF (s : PyStr) : Prop := s = [] ∨ s.getLast? = some lf

theorem endsLF_append {x y : PyStr} (hx : endsLF x) (hy : endsLF y) :
    endsLF (x ++ y) := by
  rcases hy with rfl | hy
  · rw [List.append_nil]; exact hx
  · right
    rcases y with _ | ⟨c, ys⟩
    · simp at hy
    · rw [List.getLast?_append_of_ne_nil x (by simp)]
      exact hy

theorem endsLF_concat_lf (x : PyStr) : endsLF (x ++ [lf]) :=
  Or.inr (List.getLast?_concat x)

mutual

/-- Every rendering of a subtree is empty or ends in a line feed. -/
theorem tree_endsLF (node : FSNode) (pre : PyStr) :
    endsLF (get_directory_tree node pre) :=
  match node with
  | .file => by rw [get_directory_tree_file]; exact Or.inl rfl
  | .dir entries => by
    rw [get_directory_tree_dir]
    exact emit_endsLF (List.insertionSort entLe entries) pre
termination_by sizeOf node
decreasing_by
  simp only [sizeOf_insertionSort, FSNode.dir.sizeOf_spec]
  omega

/-- Every output of the entry loop is empty or ends in a line feed. -/
theorem emit_endsLF (l : List Ent) (pre : PyStr) :
    endsLF (emitEntries l pre) :=
  match l with
  | [] => by rw [emitEntries_nil]; exact Or.inl rfl
  | (name, child) :: rest => by
    rw [emitEntries_cons]
    apply endsLF_append
    · by_cases hg : listStartsWith gitMark name
      · rw [if_pos hg]; exact Or.inl rfl
      · rw [if_neg hg]
        apply endsLF_append (endsLF_concat_lf _)
        by_cases hd : isDirNode child
        · rw [if_pos hd]; exact tree_endsLF child _
        · rw [if_neg hd]; exact Or.inl rfl
    · exact emit_endsLF rest pre
termination_by sizeOf l
decreasing_by
  · simp only [List.cons.sizeOf_spec, Prod.mk.sizeOf_spec]; omega
  · simp only [List.cons.sizeOf_spec]; omega

end

/-- All lines of a string that is empty or ends in a line feed are
themselves terminated by a line feed. -/
theorem readlines_endsLF {s : PyStr} (hs : endsLF s) :
    ∀ l ∈ readlines s, l.getLast? = some lf := by
  rcases hs with rfl | hs
  · intro l hl; cases hl
  · intro l hl
    rcases readlines_shape_of_terminated s hs l hl with ⟨m, rfl, _⟩
    exact List.getLast?_concat m

/-- C6: the tree renderer processes each directory's immediate entries in
strictly increasing lexicographic name order (given the filesystem invariant
of distinct names), never emits an entry whose name begins with `.git`
(skipped entries contribute nothing to the output), terminates every emitted
line with a newline, and — being a pure function of the directory tree — is
byte-identical across repeated calls on an unchanged directory. -/
theorem C6_renderer_sorted_filtered_terminated (entries : List Ent)
    (pre : PyStr) (hnd : (entries.map Prod.fst).Nodup) :
    List.Chain' (fun a b : Ent => entLe a b ∧ a.1 ≠ b.1)
      (List.insertionSort entLe entries)
    ∧ (∀ name child rest pre2, listStartsWith gitMark name = true →
        emitEntries ((name, child) :: rest) pre2 = emitEntries rest pre2)
    ∧ (∀ l ∈ readlines (get_directory_tree (.dir entries) pre),
        l.getLast? = some lf)
    ∧ get_directory_tree (.dir entries) pre
        = get_directory_tree (.dir entries) pre := by
  refine ⟨?_, ?_, ?_, rfl⟩
  · have hsorted : List.Sorted entLe (List.insertionSort entLe entries) :=
      List.sorted_insertionSort entLe entries
    have hndm : ((List.insertionSort entLe entries).map Prod.fst).Nodup :=
      (((List.perm_insertionSort entLe entries).map Prod.fst)).nodup_iff.mpr hnd
    have hne : (List.insertionSort entLe entries).Pairwise
        (fun a b => a.1 ≠ b.1) := List.pairwise_map.mp hndm
    exact (hsorted.and hne).chain'
  · intro name child rest pre2 hg
    rw [emitEntries_cons, if_pos hg, List.nil_append]
  · exact readlines_endsLF (tree_endsLF _ _)

/-- Witness for C6: a `.git`-prefixed entry contributes nothing. -/
theorem C6_renderer_sorted_filtered_terminated_witness :
    emitEntries [(toL ".gitignore", FSNode.file)] (toL "") =
      emitEntries [] (toL "") :=
  (C6_renderer_sorted_filtered_terminated
      [(toL "b", FSNode.file), (toL "a", FSNode.file)] [] (by decide)).2.1
    (toL ".gitignore") FSNode.file [] (toL "") (by decide)

/-- Whether the name of the last entry of a listing begins with `.git`
(`false` for an empty listing). -/
def lastIsGit (l : List Ent) : Bool :=
  match l.getLast? with
  | some e => listStartsWith gitMark e.1
  | none => false

theorem lastIsGit_cons_cons (e f : Ent) (rest : List Ent) :
    lastIsGit (e :: f :: rest) = lastIsGit (f :: rest) := by
  simp only [lastIsGit, List.getLast?_cons_cons]

theorem filter_ne_nil_of_lastIsGit_false (l : List Ent) (hne : l ≠ [])
    (h : lastIsGit l = false) :
    l.filter (fun e => !listStartsWith gitMark e.1) ≠ [] := by
  rcases hx : l.getLast? with _ | e
  · rcases l with _ | ⟨a, l2⟩
    · exact absurd rfl hne
    · rw [List.getLast?_eq_getLast _ (by simp)] at hx; cases hx
  · have hmem : e ∈ l := List.mem_of_mem_getLast? hx
    have hg : listStartsWith gitMark e.1 = false := by
      rw [lastIsGit, hx] at h; exact h
    exact List.ne_nil_of_mem
      (List.mem_filter.mpr ⟨hmem, by rw [hg]; rfl⟩)

/-- Emission of a skipped (`.git`-prefixed) entry. -/
theorem emitEntries_cons_git (name : PyStr) (child : FSNode)
    (rest : List Ent) (pre : PyStr) (hg : listStartsWith gitMark name = true) :
    emitEntries ((name, child) :: rest) pre = emitEntries rest pre := by
  rw [emitEntries_cons, if_pos hg, List.nil_append]

/-- Emission of a non-skipped entry that is not in the last position. -/
theorem emitEntries_cons_mid (name : PyStr) (child : FSNode)
    (rest : List Ent) (pre : PyStr) (hg : listStartsWith gitMark name = false)
    (hr : rest ≠ []) :
    emitEntries ((name, child) :: rest) pre =
      pre ++ glyphMid ++ name ++ [lf] ++
        (if isDirNode child then
          get_directory_tree child (pre ++ indentBar) else [])
        ++ emitEntries rest pre := by
  obtain ⟨a, t, rfl⟩ := List.exists_cons_of_ne_nil hr
  rw [emitEntries_cons]
  simp [hg]

/-- Emission of a non-skipped entry in the last position. -/
theorem emitEntries_cons_last (name : PyStr) (child : FSNode) (pre : PyStr)
    (hg : listStartsWith gitMark name = false) :
    emitEntries [(name, child)] pre =
      pre ++ glyphLast ++ name ++ [lf] ++
        (if isDirNode child then
          get_directory_tree child (pre ++ indentBlank) else []) := by
  rw [emitEntries_cons, emitEntries_nil, List.append_nil]
  simp [hg]

/-- When the listing's last entry is not `.git`-prefixed, emitting the raw
listing (glyph chosen by position in the raw listing) coincides with
emitting the `.git`-filtered listing (glyph chosen by position among the
entries that are actually emitted). -/
theorem emitEntries_filter_of_last_not_git :
    (l : List Ent) → (pre : PyStr) → lastIsGit l = false →
      emitEntries l pre =
        emitEntries (l.filter (fun e => !listStartsWith gitMark e.1)) pre
  | [], _, _ => rfl
  | [(name, child)], pre, h => by
    have hg : listStartsWith gitMark name = false := by
      rw [lastIsGit] at h
      simpa using h
    have hfil : [((name, child) : Ent)].filter
        (fun e => !listStartsWith gitMark e.1) = [(name, child)] := by
      simp [List.filter_cons, hg]
    rw [hfil]
  | (name, child) :: f :: rest2, pre, h => by
    have h2 : lastIsGit (f :: rest2) = false := by
      rw [← lastIsGit_cons_cons (name, child) f rest2]; exact h
    have ih := emitEntries_filter_of_last_not_git (f :: rest2) pre h2
    by_cases hg : listStartsWith gitMark name
    · rw [emitEntries_cons_git _ _ _ _ hg, ih]
      have hfil : (((name, child) : Ent) :: f :: rest2).filter
          (fun e => !listStartsWith gitMark e.1) =
          (f :: rest2).filter (fun e => !listStartsWith gitMark e.1) := by
        simp [List.filter_cons, hg]
      rw [hfil]
    · have hg2 : listStartsWith gitMark name = false := by
        revert hg; cases listStartsWith gitMark name <;> simp
      have hfil : (((name, child) : Ent) :: f :: rest2).filter
          (fun e => !listStartsWith gitMark e.1) =
          (name, child) :: (f :: rest2).filter
            (fun e => !listStartsWith gitMark e.1) := by
        simp [List.filter_cons, hg2]
      have hfe : (f :: rest2).filter
          (fun e => !listStartsWith gitMark e.1) ≠ [] :=
        filter_ne_nil_of_lastIsGit_false _ (by simp) h2
      rw [emitEntries_cons_mid _ _ _ _ hg2 (by simp), hfil,
        emitEntries_cons_mid _ _ _ _ hg2 hfe, ih]

/-- C7 counterexample: the claim as stated fails when the lexicographically
last entry of a directory begins with `.git`.  For the directory with
entries `"!file"` and `".gitignore"` (sorted in that order, since `'!'`
precedes `'.'`), `is_last` is computed over the unfiltered sorted listing,
so the skipped `".gitignore"` holds the last position: the single emitted
entry — which is the last emitted entry of the directory — is prefixed with
the mid-branch glyph `├── `, not the terminal glyph `└── `. -/
theorem C7_last_glyph_counterexample :
    get_directory_tree
        (.dir [(toL "!file", .file), (toL ".gitignore", .file)]) [] =
      toL "├── !file\n" ∧
    get_directory_tree
        (.dir [(toL "!file", .file), (toL ".gitignore", .file)]) [] ≠
      toL "└── !file\n" := by
  have hs : List.insertionSort entLe
      [(toL "!file", FSNode.file), (toL ".gitignore", FSNode.file)] =
      [(toL "!file", FSNode.file), (toL ".gitignore", FSNode.file)] := rfl
  have h1 : get_directory_tree
      (.dir [(toL "!file", .file), (toL ".gitignore", .file)]) [] =
      toL "├── !file\n" := by
    rw [get_directory_tree_dir, hs,
      emitEntries_cons_mid _ _ _ _ (by decide) (List.cons_ne_nil _ _),
      emitEntries_cons_git _ _ _ _ (by decide), emitEntries_nil]
    decide
  exact ⟨h1, by rw [h1]; decide⟩

/-- C7 (amended): an emitted entry of a directory is prefixed with the
terminal-branch glyph `└── ` exactly when it occupies the last position of
the *unfiltered* sorted listing; consequently, whenever the sorted listing's
last entry is not itself skipped as `.git`-prefixed (the situation the
counterexample rules out), the rendering coincides with emitting the
filtered listing, in which the last emitted entry — and only it — receives
`└── ` and every other emitted entry receives `├── `. -/
theorem C7_amended_last_glyph (entries : List Ent) (pre : PyStr)
    (h : lastIsGit (List.insertionSort entLe entries) = false) :
    get_directory_tree (.dir entries) pre =
      emitEntries ((List.insertionSort entLe entries).filter
        (fun e => !listStartsWith gitMark e.1)) pre := by
  rw [get_directory_tree_dir]
  exact emitEntries_filter_of_last_not_git _ pre h

/-- Witness for C7 (amended) on a directory whose sorted listing ends in a
non-`.git` entry. -/
theorem C7_amended_last_glyph_witness :
    get_directory_tree
        (.dir [(toL "a", FSNode.file), (toL ".gitignore", FSNode.file)]) [] =
      emitEntries ((List.insertionSort entLe
          [(toL "a", FSNode.file), (toL ".gitignore", FSNode.file)]).filter
        (fun e => !listStartsWith gitMark e.1)) [] :=
  C7_amended_last_glyph
    [(toL "a", FSNode.file), (toL ".gitignore", FSNode.file)] []
    (by decide)

/-- What `git.Repo(temp_dir)` reports about an openable working copy:
whether it is bare, and the URL of `repo.remote()` (`none` models
`repo.remote()` raising because no origin remote is configured). -/
structure RepoInfo where
  bare : Bool
  remoteUrl : Option PyStr

/-- State of the cache directory on disk.  `populated (some info)`: the
directory is non-empty and `git.Repo` opens it with report `info`;
`populated none`: non-empty but corrupt, `git.Repo` raises; `emptyDir`:
exists but empty, `git.Repo` raises `InvalidGitRepositoryError`. -/
inductive DirState where
  | absent
  | emptyDir
  | populated (info : Option RepoInfo)

/-- Externally visible effects of one `clone_repo` call, all on the cache
directory: `shutil.rmtree(..., ignore_errors=True)`,
`os.makedirs(..., exist_ok=True)`, and `git.Repo.clone_from`. -/
inductive CloneEvent where
  | rmtree
  | makedirs
  | cloneAttempt
deriving DecidableEq

/-- Environment of one `clone_repo` call: the initial state of the cache
directory, the result a network clone into an *empty* directory would have
(`some m` = raise with message `m`, `none` = succeed), and whether
`os.path.exists(repo_url)` holds for the locator itself. -/
structure CloneWorld where
  dir : DirState
  netResult : Option PyStr
  localPathExists : Bool

/-- Result of a `clone_repo` call: the returned path or the raised message,
the final state of the cache directory, and the effect trace. -/
structure CloneOutcome where
  outcome : Except PyStr PyStr
  finalDir : DirState
  events : List CloneEvent

/-- The remote-address scheme checked by `repo_url.startswith(...)`. -/
def githubMark : PyStr := toL "https://github.com/"

/-- Message prefix of the exception raised on acquisition failure. -/
def cloneFailMark : PyStr := toL "Failed to clone repository: "

/-- Stand-in for git's error text when cloning into a non-empty directory
(the exact wording is immaterial to the claims; that such a clone always
raises is git behaviour). -/
def notEmptyMsg : PyStr :=
  toL "destination path already exists and is not an empty directory"

/-- The tail of `clone_repo` after the reuse check:
`os.makedirs(temp_dir, exist_ok=True)`, then `git.Repo.clone_from(repo_url,
temp_dir)` guarded by the `except` block that removes the directory and
re-raises with the `Failed to clone repository: ` prefix.  A clone into an
empty directory succeeds or fails according to `net`; a clone into a
non-empty directory always raises. -/
def finishClone (repo_url temp_dir : PyStr) (d : DirState)
    (evs : List CloneEvent) (net : Option PyStr) : CloneOutcome :=
  let d2 : DirState := match d with | .absent => .emptyDir | x => x
  let evs2 := evs ++ [CloneEvent.makedirs]
  match d2 with
  | .emptyDir =>
    match net with
    | none =>
      ⟨.ok temp_dir, .populated (some ⟨false, some repo_url⟩),
        evs2 ++ [.cloneAttempt]⟩
    | some m =>
      ⟨.error (cloneFailMark ++ m), .absent,
        evs2 ++ [.cloneAttempt, .rmtree]⟩
  | _ =>
    ⟨.error (cloneFailMark ++ notEmptyMsg), .absent,
      evs2 ++ [.cloneAttempt, .rmtree]⟩

/-- `clone_repo(repo_url)` from `main.py` over the modelled environment.
`temp_dir` stands for the digest-derived cache path
`tempfile.gettempdir()/github_tools_<sha256(repo_url)[:12]>`; the claims
under verification do not depend on the digest value.  Control flow follows
the source: a non-remote locator that exists on disk is returned as is;
an existing cache directory is opened with `git.Repo` inside `try`, the
bare `except` removing the directory on any raise; the reuse test
`not repo.bare and repo.remote().url == repo_url` short-circuits, and when
it merely evaluates to `False` (bare repository, or origin mismatch) no
exception is raised, so no cleanup happens before the clone is attempted. -/
def clone_repo (repo_url temp_dir : PyStr) (w : CloneWorld) : CloneOutcome :=
  if ¬ listStartsWith githubMark repo_url ∧ w.localPathExists then
    ⟨.ok repo_url, w.dir, []⟩
  else
    match w.dir with
    | .absent => finishClone repo_url temp_dir .absent [] w.netResult
    | .emptyDir =>
      finishClone repo_url temp_dir .absent [.rmtree] w.netResult
    | .populated none =>
      finishClone repo_url temp_dir .absent [.rmtree] w.netResult
    | .populated (some info) =>
      if info.bare then
        finishClone repo_url temp_dir (.populated (some info)) [] w.netResult
      else
        match info.remoteUrl with
        | none =>
          finishClone repo_url temp_dir .absent [.rmtree] w.netResult
        | some u =>
          if u = repo_url then ⟨.ok temp_dir, w.dir, []⟩
          else
            finishClone repo_url temp_dir (.populated (some info)) []
              w.netResult

/-- `finishClone` either succeeds returning the cache path, or fails with a
prefixed message after removing the directory, the removal following the
clone attempt. -/
theorem finishClone_cases (repo_url temp_dir : PyStr) (d : DirState)
    (evs0 : List CloneEvent) (net : Option PyStr) :
    finishClone repo_url temp_dir d evs0 net =
      ⟨.ok temp_dir, .populated (some ⟨false, some repo_url⟩),
        evs0 ++ [.makedirs, .cloneAttempt]⟩ ∨
    ∃ m, finishClone repo_url temp_dir d evs0 net =
      ⟨.error (cloneFailMark ++ m), .absent,
        evs0 ++ [.makedirs, .cloneAttempt, .rmtree]⟩ := by
  rcases d with _ | _ | i
  · rcases net with _ | m
    · left; simp [finishClone]
    · right; exact ⟨m, by simp [finishClone]⟩
  · rcases net with _ | m
    · left; simp [finishClone]
    · right; exact ⟨m, by simp [finishClone]⟩
  · right; exact ⟨notEmptyMsg, by simp [finishClone]⟩

/-- `clone_repo` either returns a path without touching anything (reuse of a
valid cache entry, or a pre-existing local path), or hands over to the
makedirs/clone/cleanup tail with some directory state and preliminary
events. -/
theorem clone_repo_shape (repo_url temp_dir : PyStr) (w : CloneWorld) :
    (∃ p, clone_repo repo_url temp_dir w = ⟨.ok p, w.dir, []⟩) ∨
    (∃ d evs0, clone_repo repo_url temp_dir w =
      finishClone repo_url temp_dir d evs0 w.netResult) := by
  obtain ⟨d, net, lpe⟩ := w
  by_cases htop : ¬ listStartsWith githubMark repo_url = true ∧ lpe = true
  · left; exact ⟨repo_url, by simp [clone_repo, htop]⟩
  · rcases d with _ | _ | i
    · right
      exact ⟨.absent, [], by simp only [clone_repo]; rw [if_neg htop]⟩
    · right
      exact ⟨.absent, [.rmtree], by simp only [clone_repo]; rw [if_neg htop]⟩
    · rcases i with _ | ⟨bare, ru⟩
      · right
        exact ⟨.absent, [.rmtree],
          by simp only [clone_repo]; rw [if_neg htop]⟩
      · rcases bare
        · rcases ru with _ | u
          · right
            exact ⟨.absent, [.rmtree],
              by simp only [clone_repo]; rw [if_neg htop]; simp⟩
          · by_cases hu : u = repo_url
            · left
              exact ⟨temp_dir,
                by simp only [clone_repo]; rw [if_neg htop]; simp [hu]⟩
            · right
              exact ⟨.populated (some ⟨false, some u⟩), [],
                by simp only [clone_repo]; rw [if_neg htop]; simp [hu]⟩
        · right
          exact ⟨.populated (some ⟨true, ru⟩), [],
            by simp only [clone_repo]; rw [if_neg htop]; simp⟩

/-- C4: whenever `clone_repo` fails, the failure is the acquisition failure
with the `Failed to clone repository: ` prefix carrying the underlying
cause, the cache directory is absent afterwards (no half-populated entry
persists), and the trace ends with the clone attempt followed by the
directory removal. -/
theorem C4_clone_failure_cleanup (repo_url temp_dir : PyStr) (w : CloneWorld)
    (e : PyStr) (h : (clone_repo repo_url temp_dir w).outcome = .error e) :
    (∃ m, e = cloneFailMark ++ m) ∧
      (clone_repo repo_url temp_dir w).finalDir = .absent ∧
      ∃ evs, (clone_repo repo_url temp_dir w).events =
        evs ++ [.makedirs, .cloneAttempt, .rmtree] := by
  rcases clone_repo_shape repo_url temp_dir w with ⟨p, hcr⟩ | ⟨d, evs0, hcr⟩
  · rw [hcr] at h; simp at h
  · rw [hcr] at h ⊢
    rcases finishClone_cases repo_url temp_dir d evs0 w.netResult with
      hcase | ⟨m, hcase⟩
    · rw [hcase] at h; simp at h
    · rw [hcase] at h ⊢
      simp only [Except.error.injEq] at h
      exact ⟨⟨m, h.symm⟩, rfl, ⟨evs0, rfl⟩⟩

/-- Witness for C4: a network failure (`boom`) while cloning into a fresh
cache directory. -/
theorem C4_clone_failure_cleanup_witness :
    (∃ m, cloneFailMark ++ toL "boom" = cloneFailMark ++ m) ∧
      (clone_repo (toL "u") (toL "td")
        ⟨.absent, some (toL "boom"), false⟩).finalDir = .absent ∧
      ∃ evs, (clone_repo (toL "u") (toL "td")
          ⟨.absent, some (toL "boom"), false⟩).events =
        evs ++ [.makedirs, .cloneAttempt, .rmtree] :=
  C4_clone_failure_cleanup (toL "u") (toL "td")
    ⟨.absent, some (toL "boom"), false⟩ (cloneFailMark ++ toL "boom") rfl

/-- C1, behaviour at the failing input (origin mismatch): the cache
directory holds a well-formed, non-bare working copy whose recorded origin
is a different URL, and the network is available (`netResult = none`, so a
clone into a clean directory would succeed).  The claim (and spec §4.2
step 3c, §8) says the directory is deleted entirely and a fresh acquisition
is performed; the code instead skips the cleanup (the reuse test merely
evaluates to `False`, raising nothing), attempts the clone into the
still-populated directory — which necessarily fails — and only then deletes
the directory and raises.  The call therefore errors instead of returning a
freshly acquired workspace: the trace shows the clone attempt preceding the
only removal, and the outcome is the acquisition error. -/
theorem C1_origin_mismatch_no_prior_invalidation :
    clone_repo (toL "https://github.com/owner/repo") (toL "td")
        ⟨.populated (some ⟨false,
          some (toL "https://github.com/owner/other")⟩), none, false⟩ =
      ⟨.error (cloneFailMark ++ notEmptyMsg), .absent,
        [.makedirs, .cloneAttempt, .rmtree]⟩ := rfl

/-- The path separator used by `os.path.join` on POSIX. -/
def slashChar : Char := '/'

/-- `os.path.join(a, b)` for POSIX paths: an absolute `b` replaces `a`;
otherwise a separator is inserted unless `a` is empty or already ends in
one. -/
def pyJoin (a b : PyStr) : PyStr :=
  if listStartsWith [slashChar] b then b
  else if a = [] then b
  else if a.getLast? = some slashChar then a ++ b
  else a ++ slashChar :: b

/-- Per-path outcome of probing and reading a file inside the workspace:
`os.path.isfile` is false, or opening/decoding raises with a message, or
the read returns the file's text. -/
inductive FileProbe where
  | notFile
  | readErr (m : PyStr)
  | content (s : PyStr)

/-- Environment of one boundary tool call: the clone environment and cache
path, the directory tree at the resolved workspace, the per-path file
probes, and the per-path write outcomes (`some m` = `os.makedirs` or
`open(..., "w")` raising with message `m`, `none` = the write succeeds). -/
structure ToolEnv where
  cw : CloneWorld
  temp_dir : PyStr
  tree : FSNode
  probe : PyStr → FileProbe
  writeResult : PyStr → Option PyStr

/-- `git_directory_structure(repo_url)` from `main.py`: resolve the
workspace and render its tree; the `try`/`except` turns any raised message
into an `"Error: ..."` string.  The `Except` result type records whether
the call itself raises; it never does (C5). -/
def git_directory_structure (env : ToolEnv) (repo_url : PyStr) :
    Except PyStr PyStr :=
  match (clone_repo repo_url env.temp_dir env.cw).outcome with
  | .ok _ => .ok (get_directory_tree env.tree [])
  | .error e => .ok (toL "Error: " ++ e)

/-- The value recorded for one requested path by
`git_read_important_files`: the "file not found" marker, a read-error
marker carrying the cause, or the file's content. -/
def readOneVal (env : ToolEnv) (p fp : PyStr) : PyStr :=
  match env.probe (pyJoin p fp) with
  | .notFile => toL "Error: File not found"
  | .readErr m => toL "Error reading file: " ++ m
  | .content s => s

/-- Python dict assignment `d[k] = v` on an insertion-ordered association
list: replace the value in place if the key is present, else append. -/
def dictSet (d : List (PyStr × PyStr)) (k v : PyStr) :
    List (PyStr × PyStr) :=
  match d with
  | [] => [(k, v)]
  | (k0, v0) :: rest =>
    if k0 = k then (k0, v) :: rest else (k0, v0) :: dictSet rest k v

/-- Python dict lookup `d.get(k)`. -/
def dictGet : List (PyStr × PyStr) → PyStr → Option PyStr
  | [], _ => none
  | (k0, v0) :: rest, k => if k0 = k then some v0 else dictGet rest k

/-- The `for file_path in file_paths` loop of `git_read_important_files`,
accumulating `results[file_path] = ...` for each requested path. -/
def readLoop (env : ToolEnv) (p : PyStr) :
    List PyStr → List (PyStr × PyStr) → List (PyStr × PyStr)
  | [], acc => acc
  | fp :: rest, acc =>
    readLoop env p rest (dictSet acc fp (readOneVal env p fp))

/-- Result dictionary of `git_read_important_files`: the per-path table, or
the single-key `{"error": ...}` dictionary from the outer `except`. -/
inductive ReadOut where
  | table (d : List (PyStr × PyStr))
  | errDict (m : PyStr)

/-- `git_read_important_files(repo_url, file_paths)` from `main.py`. -/
def git_read_important_files (env : ToolEnv) (repo_url : PyStr)
    (file_paths : List PyStr) : Except PyStr ReadOut :=
  match (clone_repo repo_url env.temp_dir env.cw).outcome with
  | .ok p => .ok (.table (readLoop env p file_paths []))
  | .error e => .ok (.errDict (toL "Failed to process repository: " ++ e))

/-- The status record returned by `git_write_file`. -/
structure WriteResult where
  status : PyStr
  message : PyStr
  file_path : PyStr

/-- `git_write_file(repo_url, file_path, content)` from `main.py`: resolve
the workspace, create parent directories, write the content, and return a
status record; the `try`/`except` converts any raised message into the
`status="error"` record carrying the message and the path. -/
def git_write_file (env : ToolEnv) (repo_url file_path content : PyStr) :
    Except PyStr WriteResult :=
  match (clone_repo repo_url env.temp_dir env.cw).outcome with
  | .ok p =>
    match env.writeResult (pyJoin p file_path) with
    | none =>
      .ok ⟨toL "success",
        toL "Successfully wrote content to " ++ file_path, file_path⟩
    | some m =>
      .ok ⟨toL "error", toL "Failed to write file: " ++ m, file_path⟩
  | .error e =>
    .ok ⟨toL "error", toL "Failed to write file: " ++ e, file_path⟩

theorem dictGet_dictSet_self (d : List (PyStr × PyStr)) (k v : PyStr) :
    dictGet (dictSet d k v) k = some v := by
  induction d with
  | nil => simp [dictSet, dictGet]
  | cons kv rest ih =>
    rcases kv with ⟨k0, v0⟩
    by_cases hk : k0 = k
    · subst hk; simp [dictSet, dictGet]
    · simp [dictSet, dictGet, hk, ih]

theorem dictGet_dictSet_ne (d : List (PyStr × PyStr)) (k v k2 : PyStr)
    (h : k ≠ k2) : dictGet (dictSet d k v) k2 = dictGet d k2 := by
  induction d with
  | nil => simp [dictSet, dictGet, h]
  | cons kv rest ih =>
    rcases kv with ⟨k0, v0⟩
    by_cases hk : k0 = k
    · subst hk; simp [dictSet, dictGet, h]
    · by_cases hk2 : k0 = k2 <;>
        simp [dictSet, dictGet, hk, hk2, Ne.symm h, ih]

theorem mem_keys_dictSet (d : List (PyStr × PyStr)) (k v k2 : PyStr) :
    k2 ∈ (dictSet d k v).map Prod.fst ↔
      k2 = k ∨ k2 ∈ d.map Prod.fst := by
  induction d with
  | nil => simp [dictSet]
  | cons kv rest ih =>
    rcases kv with ⟨k0, v0⟩
    by_cases hk : k0 = k
    · subst hk; simp [dictSet]
    · simp [dictSet, hk, ih]; tauto

theorem nodup_keys_dictSet (d : List (PyStr × PyStr)) (k v : PyStr)
    (h : (d.map Prod.fst).Nodup) :
    ((dictSet d k v).map Prod.fst).Nodup := by
  induction d with
  | nil => simp [dictSet]
  | cons kv rest ih =>
    rcases kv with ⟨k0, v0⟩
    rw [List.map_cons, List.nodup_cons] at h
    by_cases hk : k0 = k
    · subst hk
      simpa [dictSet] using h
    · simp only [dictSet, if_neg hk, List.map_cons, List.nodup_cons]
      refine ⟨fun hmem => ?_, ih h.2⟩
      rcases (mem_keys_dictSet rest k v k0).mp hmem with h2 | h2
      · exact hk h2
      · exact h.1 h2

theorem dictGet_readLoop_not_mem (env : ToolEnv) (p : PyStr)
    (paths : List PyStr) :
    ∀ (acc : List (PyStr × PyStr)) (k : PyStr), k ∉ paths →
      dictGet (readLoop env p paths acc) k = dictGet acc k := by
  induction paths with
  | nil => intro acc k _; rfl
  | cons fp rest ih =>
    intro acc k hk
    simp only [readLoop]
    rw [ih _ _ (fun h => hk (List.mem_cons.mpr (Or.inr h)))]
    exact dictGet_dictSet_ne _ _ _ _
      (fun h => hk (List.mem_cons.mpr (Or.inl h.symm)))

theorem dictGet_readLoop_mem (env : ToolEnv) (p : PyStr)
    (paths : List PyStr) :
    ∀ (acc : List (PyStr × PyStr)) (k : PyStr), k ∈ paths →
      dictGet (readLoop env p paths acc) k =
        some (readOneVal env p k) := by
  induction paths with
  | nil => intro acc k hk; cases hk
  | cons fp rest ih =>
    intro acc k hk
    simp only [readLoop]
    by_cases hr : k ∈ rest
    · exact ih _ _ hr
    · have hkfp : k = fp := by
        rcases List.mem_cons.mp hk with h | h
        · exact h
        · exact absurd h hr
      subst hkfp
      rw [dictGet_readLoop_not_mem env p rest _ k hr]
      exact dictGet_dictSet_self _ _ _

theorem mem_keys_readLoop (env : ToolEnv) (p : PyStr) (paths : List PyStr) :
    ∀ (acc : List (PyStr × PyStr)) (k : PyStr),
      k ∈ (readLoop env p paths acc).map Prod.fst ↔
        k ∈ acc.map Prod.fst ∨ k ∈ paths := by
  induction paths with
  | nil => intro acc k; simp [readLoop]
  | cons fp rest ih =>
    intro acc k
    simp only [readLoop]
    rw [ih]
    rw [mem_keys_dictSet]
    simp only [List.mem_cons]
    tauto

theorem nodup_keys_readLoop (env : ToolEnv) (p : PyStr)
    (paths : List PyStr) :
    ∀ (acc : List (PyStr × PyStr)), (acc.map Prod.fst).Nodup →
      ((readLoop env p paths acc).map Prod.fst).Nodup := by
  induction paths with
  | nil => intro acc h; exact h
  | cons fp rest ih =>
    intro acc h
    simp only [readLoop]
    exact ih _ (nodup_keys_dictSet acc fp _ h)

/-- C3: when the workspace resolves, `git_read_important_files` returns the
per-path table built by the loop; looking up any requested path in it gives
exactly that path's own value — the "file not found" marker, the read-error
marker carrying the cause, or the full content (`readOneVal`) — so a failure
for one path never aborts or alters the others; and the table has exactly
one entry per requested path (its keys are the requested paths, without
duplicates). -/
theorem C3_read_many_per_path (env : ToolEnv) (repo_url : PyStr)
    (file_paths : List PyStr) (p : PyStr)
    (hok : (clone_repo repo_url env.temp_dir env.cw).outcome = .ok p) :
    git_read_important_files env repo_url file_paths =
        .ok (.table (readLoop env p file_paths []))
    ∧ (∀ fp ∈ file_paths,
        dictGet (readLoop env p file_paths []) fp =
          some (readOneVal env p fp))
    ∧ (∀ k, k ∈ (readLoop env p file_paths []).map Prod.fst ↔
        k ∈ file_paths)
    ∧ ((readLoop env p file_paths []).map Prod.fst).Nodup := by
  refine ⟨?_, ?_, ?_, ?_⟩
  · simp only [git_read_important_files, hok]
  · intro fp hfp; exact dictGet_readLoop_mem env p file_paths [] fp hfp
  · intro k
    rw [mem_keys_readLoop]
    simp
  · exact nodup_keys_readLoop env p file_paths [] (by simp)

/-- Environment for the C3 witness: a pre-existing local workspace `ws`
containing only `exists.txt`. -/
def readEnv0 : ToolEnv :=
  ⟨⟨.absent, none, true⟩, toL "td", .file,
    fun full =>
      if full = toL "ws/exists.txt" then .content (toL "hello")
      else .notFile,
    fun _ => none⟩

/-- Witness for C3: the spec's own scenario — reading
`["exists.txt", "missing.txt"]` where only the first exists yields the real
content for the first key and the "file not found" marker for the second. -/
theorem C3_read_many_per_path_witness :
    dictGet (readLoop readEnv0 (toL "ws")
        [toL "exists.txt", toL "missing.txt"] []) (toL "exists.txt") =
      some (toL "hello") ∧
    dictGet (readLoop readEnv0 (toL "ws")
        [toL "exists.txt", toL "missing.txt"] []) (toL "missing.txt") =
      some (toL "Error: File not found") := by
  have h := C3_read_many_per_path readEnv0 (toL "ws")
    [toL "exists.txt", toL "missing.txt"] (toL "ws") rfl
  exact ⟨(h.2.1 (toL "exists.txt") (by decide)).trans (by rfl),
    (h.2.1 (toL "missing.txt") (by decide)).trans (by rfl)⟩

/-- C5: the three boundary tools never raise — for every environment and
input each returns a value (`Except.ok`) — and every internal fault is
converted to the documented data shape: an `"Error: <message>"` string for
`git_directory_structure`, the `{"error": <message>}` dictionary for
`git_read_important_files`, and a `status="error"` record carrying the
message and the path for `git_write_file` (both for resolution failures and
for write failures). -/
theorem C5_boundary_total_data_errors (env : ToolEnv)
    (repo_url file_path content : PyStr) (file_paths : List PyStr) :
    ((∃ s, git_directory_structure env repo_url = .ok s) ∧
      (∃ r, git_read_important_files env repo_url file_paths = .ok r) ∧
      (∃ wr, git_write_file env repo_url file_path content = .ok wr)) ∧
    (∀ e, (clone_repo repo_url env.temp_dir env.cw).outcome = .error e →
      git_directory_structure env repo_url = .ok (toL "Error: " ++ e) ∧
      git_read_important_files env repo_url file_paths =
        .ok (.errDict (toL "Failed to process repository: " ++ e)) ∧
      git_write_file env repo_url file_path content =
        .ok ⟨toL "error", toL "Failed to write file: " ++ e, file_path⟩) ∧
    (∀ p m, (clone_repo repo_url env.temp_dir env.cw).outcome = .ok p →
      env.writeResult (pyJoin p file_path) = some m →
      git_write_file env repo_url file_path content =
        .ok ⟨toL "error", toL "Failed to write file: " ++ m, file_path⟩) := by
  refine ⟨⟨?_, ?_, ?_⟩, ?_, ?_⟩
  · rcases hc : (clone_repo repo_url env.temp_dir env.cw).outcome with e | p
    · exact ⟨toL "Error: " ++ e, by simp only [git_directory_structure, hc]⟩
    · exact ⟨get_directory_tree env.tree [],
        by simp only [git_directory_structure, hc]⟩
  · rcases hc : (clone_repo repo_url env.temp_dir env.cw).outcome with e | p
    · exact ⟨.errDict (toL "Failed to process repository: " ++ e),
        by simp only [git_read_important_files, hc]⟩
    · exact ⟨.table (readLoop env p file_paths []),
        by simp only [git_read_important_files, hc]⟩
  · rcases hc : (clone_repo repo_url env.temp_dir env.cw).outcome with e | p
    · exact ⟨⟨toL "error", toL "Failed to write file: " ++ e, file_path⟩,
        by simp only [git_write_file, hc]⟩
    · rcases hw : env.writeResult (pyJoin p file_path) with _ | m
      · exact ⟨⟨toL "success",
          toL "Successfully wrote content to " ++ file_path, file_path⟩,
          by simp only [git_write_file, hc, hw]⟩
      · exact ⟨⟨toL "error", toL "Failed to write file: " ++ m, file_path⟩,
          by simp only [git_write_file, hc, hw]⟩
  · intro e he
    refine ⟨?_, ?_, ?_⟩ <;>
      simp only [git_directory_structure, git_read_important_files,
        git_write_file, he]
  · intro p m hp hw
    simp only [git_write_file, hp, hw]

/-- Witness for C5: with an unavailable network (`boom`) every tool returns
its data-shaped error. -/
theorem C5_boundary_total_data_errors_witness :
    git_directory_structure
        ⟨⟨.absent, some (toL "boom"), false⟩, toL "td", .file,
          fun _ => .notFile, fun _ => none⟩ (toL "u") =
      .ok (toL "Error: " ++ (cloneFailMark ++ toL "boom")) ∧
    git_read_important_files
        ⟨⟨.absent, some (toL "boom"), false⟩, toL "td", .file,
          fun _ => .notFile, fun _ => none⟩ (toL "u") [] =
      .ok (.errDict (toL "Failed to process repository: " ++
        (cloneFailMark ++ toL "boom"))) ∧
    git_write_file
        ⟨⟨.absent, some (toL "boom"), false⟩, toL "td", .file,
          fun _ => .notFile, fun _ => none⟩ (toL "u") (toL "f") (toL "c") =
      .ok ⟨toL "error",
        toL "Failed to write file: " ++ (cloneFailMark ++ toL "boom"),
        toL "f"⟩ :=
  (C5_boundary_total_data_errors
      ⟨⟨.absent, some (toL "boom"), false⟩, toL "td", .file,
        fun _ => .notFile, fun _ => none⟩
      (toL "u") (toL "f") (toL "c") []).2.1
    (cloneFailMark ++ toL "boom") rfl
